import Mathlib

/-!
Verification of the read-aloud markdown reader.

This file gives a shallow embedding of the reader's core logic and proves the
frozen claims about it.  The embedded pieces are:

* the tokenizer `tokenizedContent` from `src/components/ReaderView.tsx`
  (lines 15-57), embedded as `tokenize`;
* the narration session controller from the `App` component in
  `src/components/GeminiPanel.tsx` (lines 133-297): `startReading`,
  `onWordClick`, `handleRateChange`, `handleVoiceChange`, `pauseReading`,
  `resumeReading`, `stopReading`, `replayReading`, and the utterance
  callbacks, embedded as functions on an explicit `Session` record;
* the highlight `useEffect` of `MarkdownViewer` from `src/unnamed/part_000`
  (lines 46-110), embedded as `applyHighlightEffect` on an explicit model of
  the viewer's DOM text nodes.

Modelling conventions:

* Strings are `List Char` (a JavaScript string is a sequence of code units;
  none of the claims depend on surrogate-pair details).
* `Session.doc` is the text the speech engine narrates, i.e. the value of
  `viewerRef.current.getInnerText()`; the model assumes a file is loaded and
  the speech engine exists (the `!file`, `!viewerRef.current` and
  `'speechSynthesis' in window` guards of the source are preconditions of the
  model, not branches of it).
* The speech engine is embedded as the `streams` field: `speak` appends a
  record with `live := true`, `speechSynthesis.cancel()` clears every `live`
  flag.  Event delivery (`deliverBoundary`, ...) is guarded on `live`,
  embedding the engine contract that a canceled or finished utterance fires
  no further callbacks - this is exactly the cancel-before-start discipline
  the source relies on (it registers no generation tags of its own).
* React state setters (`setRate`, ...) update the corresponding `Session`
  field.  A callback scheduled with `setTimeout` runs the closure created in
  the render that scheduled it, so the values it reads are the ones that
  render closed over.  `startReading` therefore takes the captured `rate` and
  `selectedVoice` explicitly: `handleRateChange` and `handleVoiceChange`
  schedule `startReading` from the render *before* their own state update, so
  the captured parameter is the pre-update one (a stale closure in the
  source; see the C4 theorem).
-/

namespace ReadAloud

/-- JavaScript's regexp whitespace class `\s` (ECMA-262 WhiteSpace plus
LineTerminator), used by both the tokenizer's `/\S+/g` and `String.trim`. -/
def isSpace (c : Char) : Bool :=
  c = ' ' || c = '\t' || c = '\n' || c.toNat = 0x0B || c.toNat = 0x0C || c = '\r' ||
  c.toNat = 0xA0 || c.toNat = 0x1680 ||
  (0x2000 ≤ c.toNat && c.toNat ≤ 0x200A) ||
  c.toNat = 0x2028 || c.toNat = 0x2029 || c.toNat = 0x202F ||
  c.toNat = 0x205F || c.toNat = 0x3000 || c.toNat = 0xFEFF

/-- JavaScript's regexp word class `\w = [A-Za-z0-9_]`, used by the
highlighter's `/^\w+/` match. -/
def isWordChar (c : Char) : Bool :=
  (('a' ≤ c && c ≤ 'z') || ('A' ≤ c && c ≤ 'Z') || ('0' ≤ c && c ≤ '9') || c = '_')

theorem dropWhile_length_le (p : Char → Bool) :
    ∀ l : List Char, (l.dropWhile p).length ≤ l.length
  | [] => Nat.le_refl _
  | c :: cs => by
    by_cases h : p c
    · simp only [List.dropWhile_cons_of_pos h]
      exact Nat.le_succ_of_le (dropWhile_length_le p cs)
    · simp [List.dropWhile_cons_of_neg h]

theorem dropWhile_cons_lt (p : Char → Bool) (c : Char) (cs : List Char) (h : p c = true) :
    ((c :: cs).dropWhile p).length < (c :: cs).length := by
  simp only [List.dropWhile_cons_of_pos h, List.length_cons]
  exact Nat.lt_succ_of_le (dropWhile_length_le p cs)

/-- One element produced by `tokenizedContent` (ReaderView.tsx lines 29-53):
`{ text, index, isWord }` where `index` is the 0-based start offset of `text`
in the full document string. -/
structure Token where
  text : List Char
  index : Nat
  isWord : Bool
deriving Repr, DecidableEq

/-- The loop of `tokenizedContent` (ReaderView.tsx lines 23-54).
`wordRegex = /\S+/g` scans the maximal non-whitespace runs in order; for each
match the loop first pushes the gap since `lastIndex` (which, by maximality of
the previous match, is a maximal whitespace run) as a non-word token, then the
match itself as a word token; after the loop the trailing remainder (all
whitespace) is pushed as a non-word token.  Equivalently, the input is cut
into alternating maximal whitespace / non-whitespace runs, emitted in order
with their start offsets, which is the form of the recursion below. -/
def tokenizeGo (l : List Char) (i : Nat) : List Token :=
  match l with
  | [] => []
  | c :: cs =>
    if hs : isSpace c then
      let run := (c :: cs).takeWhile isSpace
      Token.mk run i false ::
        tokenizeGo ((c :: cs).dropWhile isSpace) (i + run.length)
    else
      let run := (c :: cs).takeWhile (fun x => !isSpace x)
      Token.mk run i true ::
        tokenizeGo ((c :: cs).dropWhile (fun x => !isSpace x)) (i + run.length)
termination_by l.length
decreasing_by
  · exact dropWhile_cons_lt _ _ _ hs
  · exact dropWhile_cons_lt _ _ _ (by simp [hs])

/-- Embeds `tokenizedContent` (ReaderView.tsx lines 15-57). -/
def tokenize (l : List Char) : List Token := tokenizeGo l 0

/-- Concatenation of the token texts in order. -/
def concatTokens (ts : List Token) : List Char :=
  ts.foldr (fun t acc => t.text ++ acc) []

/-- Predicate `chainFrom i ts` holds when the tokens in `ts` tile the document contiguously
starting at offset `i`: each token starts exactly where the previous one ended
(no gaps, no overlaps). -/
def chainFrom : Nat → List Token → Bool
  | _, [] => true
  | i, t :: ts => (t.index == i) && chainFrom (i + t.text.length) ts

/-- One underlying speech-engine utterance (`new SpeechSynthesisUtterance(textToRead)`,
GeminiPanel.tsx lines 190-224): the slice start it was created from (the
`startIndex` its callbacks close over), the rate and voice it was given, and
whether it is still live (not canceled and not finished). -/
structure StreamRec where
  base : Nat
  rate : Rat
  voice : Option String
  live : Bool
deriving Repr, DecidableEq

/-- The narration-relevant state of the `App` component (GeminiPanel.tsx lines
133-297) together with the speech engine it drives.  `doc` is the narrated
text (`viewerRef.current.getInnerText()`), `currentWordIndex` the React state
of the same name (-1 = none), `enginePaused` the engine's global paused flag,
and `streams` the utterances handed to the engine so far, in order. -/
structure Session where
  doc : List Char
  voices : List String
  isPlaying : Bool
  isPaused : Bool
  currentWordIndex : Int
  rate : Rat
  selectedVoice : Option String
  enginePaused : Bool
  streams : List StreamRec
deriving Repr, DecidableEq

/-- Embeds `window.speechSynthesis.cancel()`: every in-flight utterance stops; no
further callbacks will be delivered for it (see `deliverBoundary`). -/
def cancelEngine (st : Session) : Session :=
  { st with streams := st.streams.map (fun s => { s with live := false }) }

/-- Embeds `window.speechSynthesis.speaking`: an utterance is in progress. -/
def engineSpeaking (st : Session) : Bool :=
  st.streams.any (fun s => s.live)

/-- Embeds `startReading(startIndex)` (GeminiPanel.tsx lines 172-225).
`capturedRate` and `capturedVoice` are the values of the `rate` and
`selectedVoice` bindings in the render whose `startReading` closure is being
run - when the call is synchronous with no preceding state update these are
just the current `st.rate` / `st.selectedVoice`. -/
def startReading (capturedRate : Rat) (capturedVoice : Option String)
    (startIndex : Nat) (st : Session) : Session :=
  -- const textContent = viewerRef.current.getInnerText();
  -- if (!textContent.trim()) return;
  if st.doc.all isSpace then st
  else
    -- window.speechSynthesis.cancel();
    let st1 := cancelEngine st
    -- const textToRead = textContent.substring(startIndex);
    let textToRead := st.doc.drop startIndex
    -- if (!textToRead.trim()) return;
    if textToRead.all isSpace then st1
    else
      -- new SpeechSynthesisUtterance(textToRead); ...; speechSynthesis.speak(utterance);
      { st1 with streams := st1.streams ++
          [{ base := startIndex, rate := capturedRate, voice := capturedVoice, live := true }] }

/-- Embeds `onWordClick(index)` (GeminiPanel.tsx lines 227-232): cancel, then the
10 ms-delayed `startReading(index)` (run here sequentially; no state update
happened in between, so the captured parameters are the current ones). -/
def onWordClick (index : Nat) (st : Session) : Session :=
  startReading st.rate st.selectedVoice index (cancelEngine st)

/-- Embeds `stopReading()` (GeminiPanel.tsx lines 267-272). -/
def stopReading (st : Session) : Session :=
  { cancelEngine st with isPlaying := false, isPaused := false, currentWordIndex := -1 }

/-- Embeds `replayReading()` (GeminiPanel.tsx lines 274-277): stop, then the delayed
`startReading(0)` (stopReading changes none of the values that call captures). -/
def replayReading (st : Session) : Session :=
  startReading st.rate st.selectedVoice 0 (stopReading st)

/-- Embeds `handleRateChange(newRate)` (GeminiPanel.tsx lines 234-241).  The
`setTimeout(() => startReading(currentIndex), 50)` callback is the
`startReading` closure of the render that ran the handler, so the rate it
reads is the one from *before* `setRate(newRate)` took effect. -/
def handleRateChange (newRate : Rat) (st : Session) : Session :=
  let capturedRate := st.rate          -- the binding the scheduled closure reads
  let st1 := { st with rate := newRate }  -- setRate(newRate)
  if st1.isPlaying then
    let st2 := cancelEngine st1
    -- const currentIndex = currentWordIndex > 0 ? currentWordIndex : 0;
    let currentIndex := if 0 < st2.currentWordIndex then st2.currentWordIndex.toNat else 0
    startReading capturedRate st.selectedVoice currentIndex st2
  else st1

/-- Embeds `handleVoiceChange(voiceName)` (GeminiPanel.tsx lines 243-253).  Same
stale-closure shape as `handleRateChange`: the scheduled `startReading` reads
the `selectedVoice` binding from before `setSelectedVoice(voice)`. -/
def handleVoiceChange (voiceName : String) (st : Session) : Session :=
  match st.voices.find? (fun v => v = voiceName) with
  | some v =>
    let capturedVoice := st.selectedVoice  -- the binding the scheduled closure reads
    let st1 := { st with selectedVoice := some v }  -- setSelectedVoice(voice)
    if st1.isPlaying then
      let st2 := cancelEngine st1
      let currentIndex := if 0 < st2.currentWordIndex then st2.currentWordIndex.toNat else 0
      startReading st.rate capturedVoice currentIndex st2
    else st1
  | none => st

/-- Embeds `pauseReading()` (GeminiPanel.tsx lines 255-259). -/
def pauseReading (st : Session) : Session :=
  if engineSpeaking st && !st.enginePaused then { st with enginePaused := true } else st

/-- Embeds `resumeReading()` (GeminiPanel.tsx lines 261-265). -/
def resumeReading (st : Session) : Session :=
  if st.enginePaused then { st with enginePaused := false } else st

/-- Delivery of a `boundary` event for utterance `k` (GeminiPanel.tsx lines
215-221).  The engine fires callbacks only for an utterance it is still
speaking - a canceled or finished one is dropped from its queue - so delivery
is guarded on `live`; the handler itself is the unguarded
`if (event.name === 'word') setCurrentWordIndex(startIndex + event.charIndex)`. -/
def deliverBoundary (st : Session) (k : Nat) (name : String) (charIndex : Nat) : Session :=
  match st.streams.get? k with
  | some s =>
    if s.live then
      if name = "word" then
        { st with currentWordIndex := ((s.base + charIndex : Nat) : Int) }
      else st
    else st
  | none => st

/-- Delivery of the `start` event for utterance `k` (GeminiPanel.tsx 196-199). -/
def deliverStart (st : Session) (k : Nat) : Session :=
  match st.streams.get? k with
  | some s => if s.live then { st with isPlaying := true, isPaused := false } else st
  | none => st

/-- Delivery of the `end` event for a naturally finishing utterance `k`
(GeminiPanel.tsx 201-205); the utterance is no longer live afterwards. -/
def deliverEnd (st : Session) (k : Nat) : Session :=
  match st.streams.get? k with
  | some s =>
    if s.live then
      { st with isPlaying := false, isPaused := false, currentWordIndex := -1,
                streams := st.streams.set k { s with live := false } }
    else st
  | none => st

/-- Delivery of the `pause` event for utterance `k` (GeminiPanel.tsx 207-209). -/
def deliverPause (st : Session) (k : Nat) : Session :=
  match st.streams.get? k with
  | some s => if s.live then { st with isPaused := true } else st
  | none => st

/-- Delivery of the `resume` event for utterance `k` (GeminiPanel.tsx 211-213). -/
def deliverResume (st : Session) (k : Nat) : Session :=
  match st.streams.get? k with
  | some s => if s.live then { st with isPaused := false } else st
  | none => st

/-- The component's initial state (GeminiPanel.tsx lines 139-146) for a given
document, voice list and initially selected voice. -/
def initSession (doc : List Char) (voices : List String) (v0 : Option String) : Session :=
  { doc := doc, voices := voices, isPlaying := false, isPaused := false,
    currentWordIndex := -1, rate := 1, selectedVoice := v0,
    enginePaused := false, streams := [] }

/-- Number of live utterances. -/
def liveCount (st : Session) : Nat :=
  (st.streams.filter (fun s => s.live)).length

/-- The user-facing transport commands of the claims. -/
inductive Cmd where
  | start (o : Nat)
  | seek (o : Nat)
  | stop
  | replay
  | changeRate (r : Rat)
  | changeVoice (name : String)
deriving Repr, DecidableEq

/-- How each command runs on the session (the Start button calls
`startReading` synchronously from the current render). -/
def runCmd (st : Session) : Cmd → Session
  | .start o => startReading st.rate st.selectedVoice o st
  | .seek o => onWordClick o st
  | .stop => stopReading st
  | .replay => replayReading st
  | .changeRate r => handleRateChange r st
  | .changeVoice n => handleVoiceChange n st

/-- One sibling node of the viewer's rendered text, as the highlight effect
sees it: either a plain text node or a `<mark class="tts-highlight">` element
wrapping a text node.  (The `TreeWalker(SHOW_TEXT)` walk visits the text
inside a mark exactly like a bare text node.) -/
inductive Seg where
  | txt (s : List Char)
  | markEl (s : List Char)
deriving Repr, DecidableEq

/-- The text content of a segment. -/
def segText : Seg → List Char
  | .txt s => s
  | .markEl s => s

/-- Whether a segment is a highlight mark element. -/
def isMark : Seg → Bool
  | .txt _ => false
  | .markEl _ => true

/-- The state the highlight `useEffect` of `MarkdownViewer`
(src/unnamed/part_000 lines 46-110) reads and writes: the ordered text-bearing
segments of the container, and `highlightRef.current` as the position of the
mark element it installed (if any). -/
structure ViewerState where
  dom : List Seg
  highlightRef : Option Nat
deriving Repr, DecidableEq

/-- Full text of the rendered surface. -/
def domText (dom : List Seg) : List Char :=
  (dom.map segText).flatten

/-- Number of highlight mark elements present. -/
def countMark (dom : List Seg) : Nat :=
  (dom.filter isMark).length

/-- Embeds `parent.normalize()` (part_000 line 54): merge adjacent sibling text nodes
and drop empty ones.  Mark elements are left alone. -/
def normalizeDom : List Seg → List Seg
  | [] => []
  | .markEl s :: rest => .markEl s :: normalizeDom rest
  | .txt s :: rest =>
    match normalizeDom rest with
    | .txt t :: r2 => if s ++ t = [] then r2 else .txt (s ++ t) :: r2
    | r => if s = [] then r else .txt s :: r

/-- The cleanup step of the effect (part_000 lines 50-57): if `highlightRef`
holds a mark, replace it with a text node carrying its text content, normalize
the parent, and null the ref. -/
def cleanupHighlight (vs : ViewerState) : ViewerState :=
  match vs.highlightRef with
  | none => vs
  | some i =>
    match vs.dom.get? i with
    | some (.markEl s) =>
      { dom := normalizeDom (vs.dom.set i (.txt s)), highlightRef := none }
    | _ => { vs with highlightRef := none }

/-- Embeds `remainingText.match(/^\w+/)` and the word length it yields
(part_000 lines 79-81): the run of word characters at the start, minimum 1. -/
def matchWordLen (s : List Char) : Nat :=
  let m := s.takeWhile isWordChar
  if m.length = 0 then 1 else m.length

/-- Embeds the `TreeWalker` loop of the effect (part_000 lines 62-109), with the
accumulated `charCount` subtracted from `currentWordIndex` as it walks (the
loop keeps `charCount ≤ currentWordIndex` until it stops, so the local index
is exact and the `Math.max(0, ...)` clamp is the identity).  At the first
segment with `charCount + nodeLength > currentWordIndex` it computes the
in-node offset and word length and wraps that range of the text node in a new
mark element (for a range inside a single text node `range.surroundContents`
succeeds; the `catch` branch of the source is unreachable there).  Returns the
new segment list and the position of the inserted mark, if one was inserted.
A mark element found by the walk is left unwrapped; after the cleanup step the
dom holds no mark, so that branch is never taken by the effect. -/
def wrapAt : List Seg → Nat → List Seg × Option Nat
  | [], _ => ([], none)
  | seg :: rest, idx =>
    let n := (segText seg).length
    if idx < n then
      match seg with
      | .txt s =>
        let wl := matchWordLen (s.drop idx)
        if idx + wl ≤ s.length then
          (Seg.txt (s.take idx) :: Seg.markEl ((s.drop idx).take wl) ::
             Seg.txt (s.drop (idx + wl)) :: rest, some 1)
        else (Seg.txt s :: rest, none)
      | .markEl s => (Seg.markEl s :: rest, none)
    else
      let p := wrapAt rest (idx - n)
      (seg :: p.1, p.2.map (· + 1))

/-- One run of the highlight `useEffect` (part_000 lines 46-110): cleanup of
the previous mark, then - unless `currentWordIndex < 0 || !isPlaying` - the
walk-and-wrap, installing at most one new mark and pointing `highlightRef` at
it.  Scrolling has no effect on this state and is omitted. -/
def applyHighlightEffect (currentWordIndex : Int) (isPlaying : Bool)
    (vs : ViewerState) : ViewerState :=
  let vs1 := cleanupHighlight vs
  if currentWordIndex < 0 || !isPlaying then vs1
  else
    let p := wrapAt vs1.dom currentWordIndex.toNat
    { dom := p.1, highlightRef := p.2 }

/-- The effect runs inside the viewer component and touches only the DOM of
the container and `highlightRef`; the narration session state lives in `App`
and is not accessible to it.  The combined step on the full system state. -/
def applyHighlightSys (currentWordIndex : Int) (isPlaying : Bool) :
    Session × ViewerState → Session × ViewerState
  | (ses, vs) => (ses, applyHighlightEffect currentWordIndex isPlaying vs)

/-- Invariant: `highlightRef` is accurate: it is null exactly when no mark is in the
DOM, and otherwise points at the unique mark. -/
def refInv (vs : ViewerState) : Prop :=
  match vs.highlightRef with
  | none => countMark vs.dom = 0
  | some i => countMark vs.dom = 1 ∧ ∃ s, vs.dom.get? i = some (Seg.markEl s)

/-- The viewer as first rendered: a sequence of plain text nodes, no mark. -/
def initViewer (nodes : List (List Char)) : ViewerState :=
  { dom := nodes.map Seg.txt, highlightRef := none }

/-! ### Tokenizer lemmas -/

theorem concatTokens_nil : concatTokens [] = [] := rfl

theorem concatTokens_cons (t : Token) (ts : List Token) :
    concatTokens (t :: ts) = t.text ++ concatTokens ts := rfl

theorem tokenizeGo_nil (i : Nat) : tokenizeGo [] i = [] := by
  simp [tokenizeGo]

theorem tokenizeGo_cons_pos (c : Char) (cs : List Char) (i : Nat) (hs : isSpace c = true) :
    tokenizeGo (c :: cs) i =
      Token.mk ((c :: cs).takeWhile isSpace) i false ::
        tokenizeGo ((c :: cs).dropWhile isSpace) (i + ((c :: cs).takeWhile isSpace).length) := by
  simp [tokenizeGo, hs]

theorem tokenizeGo_cons_neg (c : Char) (cs : List Char) (i : Nat) (hs : isSpace c = false) :
    tokenizeGo (c :: cs) i =
      Token.mk ((c :: cs).takeWhile (fun x => !isSpace x)) i true ::
        tokenizeGo ((c :: cs).dropWhile (fun x => !isSpace x))
          (i + ((c :: cs).takeWhile (fun x => !isSpace x)).length) := by
  simp [tokenizeGo, hs]

theorem dropWhile_len_succ (p : Char → Bool) (c : Char) (cs : List Char) (n : Nat)
    (hp : p c = true) (h : (c :: cs).length ≤ n + 1) :
    ((c :: cs).dropWhile p).length ≤ n := by
  have h1 := dropWhile_cons_lt p c cs hp
  omega

theorem take_length_takeWhile (p : Char → Bool) (l : List Char) :
    l.take ((l.takeWhile p).length) = l.takeWhile p := by
  have h := List.takeWhile_append_dropWhile p l
  calc l.take ((l.takeWhile p).length)
      = (l.takeWhile p ++ l.dropWhile p).take ((l.takeWhile p).length) := by rw [h]
    _ = l.takeWhile p := List.take_left _ _

theorem concat_tokenizeGo_bounded :
    ∀ (n : Nat) (l : List Char) (i : Nat), l.length ≤ n →
      concatTokens (tokenizeGo l i) = l := by
  intro n
  induction n with
  | zero =>
    intro l i h
    have : l = [] := List.length_eq_zero.mp (Nat.le_zero.mp h)
    subst this
    simp [tokenizeGo_nil, concatTokens_nil]
  | succ n ih =>
    intro l i h
    match l with
    | [] => simp [tokenizeGo_nil, concatTokens_nil]
    | c :: cs =>
      by_cases hs : isSpace c = true
      · rw [tokenizeGo_cons_pos c cs i hs, concatTokens_cons]
        rw [ih _ _ (dropWhile_len_succ isSpace c cs n hs h)]
        exact List.takeWhile_append_dropWhile _ _
      · have hs0 : isSpace c = false := by simpa using hs
        have hs' : (fun x => !isSpace x) c = true := by simp [hs0]
        rw [tokenizeGo_cons_neg c cs i hs0, concatTokens_cons]
        rw [ih _ _ (dropWhile_len_succ (fun x => !isSpace x) c cs n hs' h)]
        exact List.takeWhile_append_dropWhile _ _

theorem concat_tokenizeGo (l : List Char) (i : Nat) :
    concatTokens (tokenizeGo l i) = l :=
  concat_tokenizeGo_bounded l.length l i (Nat.le_refl _)

theorem chainFrom_tokenizeGo_bounded :
    ∀ (n : Nat) (l : List Char) (i : Nat), l.length ≤ n →
      chainFrom i (tokenizeGo l i) = true := by
  intro n
  induction n with
  | zero =>
    intro l i h
    have : l = [] := List.length_eq_zero.mp (Nat.le_zero.mp h)
    subst this
    simp [tokenizeGo_nil, chainFrom]
  | succ n ih =>
    intro l i h
    match l with
    | [] => simp [tokenizeGo_nil, chainFrom]
    | c :: cs =>
      by_cases hs : isSpace c = true
      · rw [tokenizeGo_cons_pos c cs i hs]
        simp only [chainFrom, beq_self_eq_true, Bool.true_and]
        exact ih _ _ (dropWhile_len_succ isSpace c cs n hs h)
      · have hs0 : isSpace c = false := by simpa using hs
        have hs' : (fun x => !isSpace x) c = true := by simp [hs0]
        rw [tokenizeGo_cons_neg c cs i hs0]
        simp only [chainFrom, beq_self_eq_true, Bool.true_and]
        exact ih _ _ (dropWhile_len_succ (fun x => !isSpace x) c cs n hs' h)

theorem tokenizeGo_text_at_bounded :
    ∀ (n : Nat) (l : List Char) (i : Nat), l.length ≤ n →
      ∀ t ∈ tokenizeGo l i,
        i ≤ t.index ∧ (l.drop (t.index - i)).take t.text.length = t.text := by
  intro n
  induction n with
  | zero =>
    intro l i h
    have : l = [] := List.length_eq_zero.mp (Nat.le_zero.mp h)
    subst this
    simp [tokenizeGo_nil]
  | succ n ih =>
    intro l i h t ht
    match l with
    | [] => simp [tokenizeGo_nil] at ht
    | c :: cs =>
      by_cases hs : isSpace c = true
      · rw [tokenizeGo_cons_pos c cs i hs] at ht
        rcases List.mem_cons.mp ht with rfl | htail
        · refine ⟨Nat.le_refl _, ?_⟩
          simp only [Nat.sub_self, List.drop_zero]
          exact take_length_takeWhile isSpace (c :: cs)
        · have hlen : ((c :: cs).dropWhile isSpace).length ≤ n :=
            dropWhile_len_succ isSpace c cs n hs h
          obtain ⟨h1, h2⟩ := ih _ _ hlen t htail
          set run := (c :: cs).takeWhile isSpace with hrun
          set rest := (c :: cs).dropWhile isSpace with hrest
          refine ⟨Nat.le_trans (Nat.le_add_right i run.length) h1, ?_⟩
          have hsplit : (c :: cs) = run ++ rest := (List.takeWhile_append_dropWhile _ _).symm
          have harith : t.index - i = run.length + (t.index - (i + run.length)) := by omega
          rw [hsplit, harith, ← List.drop_drop, List.drop_left]
          exact h2
      · have hs0 : isSpace c = false := by simpa using hs
        have hs' : (fun x => !isSpace x) c = true := by simp [hs0]
        rw [tokenizeGo_cons_neg c cs i hs0] at ht
        rcases List.mem_cons.mp ht with rfl | htail
        · refine ⟨Nat.le_refl _, ?_⟩
          simp only [Nat.sub_self, List.drop_zero]
          exact take_length_takeWhile _ (c :: cs)
        · have hlen : ((c :: cs).dropWhile (fun x => !isSpace x)).length ≤ n :=
            dropWhile_len_succ (fun x => !isSpace x) c cs n hs' h
          obtain ⟨h1, h2⟩ := ih _ _ hlen t htail
          set run := (c :: cs).takeWhile (fun x => !isSpace x) with hrun
          set rest := (c :: cs).dropWhile (fun x => !isSpace x) with hrest
          refine ⟨Nat.le_trans (Nat.le_add_right i run.length) h1, ?_⟩
          have hsplit : (c :: cs) = run ++ rest := (List.takeWhile_append_dropWhile _ _).symm
          have harith : t.index - i = run.length + (t.index - (i + run.length)) := by omega
          rw [hsplit, harith, ← List.drop_drop, List.drop_left]
          exact h2

theorem tokenizeGo_last_sep_bounded :
    ∀ (n : Nat) (l : List Char) (i : Nat), l.length ≤ n →
      (∃ c, l.getLast? = some c ∧ isSpace c = true) →
      ∃ ts tok, tokenizeGo l i = ts ++ [tok] ∧ tok.isWord = false := by
  intro n
  induction n with
  | zero =>
    intro l i h hl
    have : l = [] := List.length_eq_zero.mp (Nat.le_zero.mp h)
    subst this
    simp at hl
  | succ n ih =>
    intro l i h hl
    match l with
    | [] => simp at hl
    | c :: cs =>
      by_cases hs : isSpace c = true
      · rw [tokenizeGo_cons_pos c cs i hs]
        by_cases hrest : (c :: cs).dropWhile isSpace = []
        · rw [hrest, tokenizeGo_nil]
          exact ⟨[], _, rfl, rfl⟩
        · have hne : (c :: cs).dropWhile isSpace ≠ [] := hrest
          have hsplit : (c :: cs) = (c :: cs).takeWhile isSpace ++ (c :: cs).dropWhile isSpace :=
            (List.takeWhile_append_dropWhile _ _).symm
          have htrans : ∃ e, ((c :: cs).dropWhile isSpace).getLast? = some e ∧ isSpace e = true := by
            obtain ⟨e, he1, he2⟩ := hl
            refine ⟨e, ?_, he2⟩
            rw [← List.getLast?_append_of_ne_nil ((c :: cs).takeWhile isSpace) hne, ← hsplit]
            exact he1
          obtain ⟨ts, tok, h1, h2⟩ := ih _ _ (dropWhile_len_succ isSpace c cs n hs h) htrans
          exact ⟨_ :: ts, tok, by rw [h1, List.cons_append], h2⟩
      · have hs0 : isSpace c = false := by simpa using hs
        have hs' : (fun x => !isSpace x) c = true := by simp [hs0]
        rw [tokenizeGo_cons_neg c cs i hs0]
        by_cases hrest : (c :: cs).dropWhile (fun x => !isSpace x) = []
        · exfalso
          obtain ⟨e, he1, he2⟩ := hl
          have hmem : e ∈ (c :: cs) := List.mem_of_mem_getLast? he1
          have := (List.dropWhile_eq_nil_iff.mp hrest) e hmem
          simp [he2] at this
        · have hne : (c :: cs).dropWhile (fun x => !isSpace x) ≠ [] := hrest
          have hsplit : (c :: cs) =
              (c :: cs).takeWhile (fun x => !isSpace x) ++ (c :: cs).dropWhile (fun x => !isSpace x) :=
            (List.takeWhile_append_dropWhile _ _).symm
          have htrans : ∃ e, ((c :: cs).dropWhile (fun x => !isSpace x)).getLast? = some e ∧
              isSpace e = true := by
            obtain ⟨e, he1, he2⟩ := hl
            refine ⟨e, ?_, he2⟩
            rw [← List.getLast?_append_of_ne_nil ((c :: cs).takeWhile (fun x => !isSpace x)) hne,
               ← hsplit]
            exact he1
          obtain ⟨ts, tok, h1, h2⟩ :=
            ih _ _ (dropWhile_len_succ (fun x => !isSpace x) c cs n hs' h) htrans
          exact ⟨_ :: ts, tok, by rw [h1, List.cons_append], h2⟩

/-! ### Claim theorems: tokenizer -/

/-- C3: for every input string, `tokenize` yields an ordered token sequence
whose texts concatenate back to exactly the input; the tokens tile the input
contiguously starting at offset 0 (no gaps, no overlaps); and every token's
`index` is the 0-based position of its text in the input, i.e. the slice of
the input starting at `index` of the token's length is the token's text. -/
theorem tokenize_round_trip (l : List Char) :
    concatTokens (tokenize l) = l ∧
    chainFrom 0 (tokenize l) = true ∧
    ∀ t ∈ tokenize l, (l.drop t.index).take t.text.length = t.text := by
  refine ⟨concat_tokenizeGo l 0,
          chainFrom_tokenizeGo_bounded l.length l 0 (Nat.le_refl _), ?_⟩
  intro t ht
  have h := tokenizeGo_text_at_bounded l.length l 0 (Nat.le_refl _) t ht
  simpa using h.2

/-- Witness for C3 at the concrete input "ab c" and its token "c" at offset 3. -/
theorem tokenize_round_trip_witness :
    concatTokens (tokenize "ab c".toList) = "ab c".toList ∧
    ("ab c".toList.drop 3).take 1 = "c".toList := by
  have hts : tokenize "ab c".toList =
      [Token.mk "ab".toList 0 true, Token.mk " ".toList 2 false, Token.mk "c".toList 3 true] := by
    simp [tokenize, tokenizeGo, isSpace]
  refine ⟨(tokenize_round_trip "ab c".toList).1, ?_⟩
  have hmem : Token.mk "c".toList 3 true ∈ tokenize "ab c".toList := by
    rw [hts]; simp
  have h := (tokenize_round_trip "ab c".toList).2.2 _ hmem
  simpa using h

/-- C8: the tokenizer boundary cases: `tokenize` of the empty string is the
empty sequence; an input with no whitespace yields exactly one word token
covering the whole input; leading whitespace is emitted as a separator
(non-word) token (the maximal leading whitespace run); an input ending in
whitespace ends in a separator token; and `startReading` on an empty document
is a no-op in any state. -/
theorem tokenize_boundary_cases :
    (tokenize [] = []) ∧
    (∀ l : List Char, l ≠ [] → l.all (fun c => !isSpace c) = true →
      tokenize l = [Token.mk l 0 true]) ∧
    (∀ (c : Char) (cs : List Char), isSpace c = true →
      ∃ rest, tokenize (c :: cs) =
        Token.mk ((c :: cs).takeWhile isSpace) 0 false :: rest) ∧
    (∀ l : List Char, (∃ c, l.getLast? = some c ∧ isSpace c = true) →
      ∃ ts tok, tokenize l = ts ++ [tok] ∧ tok.isWord = false) ∧
    (∀ (r : Rat) (v : Option String) (o : Nat) (st : Session), st.doc = [] →
      startReading r v o st = st) := by
  refine ⟨by simp [tokenize, tokenizeGo_nil], ?_, ?_, ?_, ?_⟩
  · intro l hne hall
    match l, hne with
    | c :: cs, _ =>
      have hc : isSpace c = false := by
        have := (List.all_eq_true.mp hall) c (by simp)
        simpa using this
      have htake : (c :: cs).takeWhile (fun x => !isSpace x) = c :: cs :=
        List.takeWhile_eq_self_iff.mpr (List.all_eq_true.mp hall)
      have hdrop : (c :: cs).dropWhile (fun x => !isSpace x) = [] :=
        List.dropWhile_eq_nil_iff.mpr (List.all_eq_true.mp hall)
      rw [tokenize, tokenizeGo_cons_neg c cs 0 hc, htake, hdrop, tokenizeGo_nil]
  · intro c cs hs
    exact ⟨_, tokenizeGo_cons_pos c cs 0 hs⟩
  · intro l hl
    exact tokenizeGo_last_sep_bounded l.length l 0 (Nat.le_refl _) hl
  · intro r v o st hdoc
    simp [startReading, hdoc]

/-- Witness for C8 at concrete inputs. -/
theorem tokenize_boundary_cases_witness :
    tokenize "abc".toList = [Token.mk "abc".toList 0 true] ∧
    (∃ rest, tokenize (' ' :: "x".toList) =
      Token.mk ((' ' :: "x".toList).takeWhile isSpace) 0 false :: rest) ∧
    (∃ ts tok, tokenize "x ".toList = ts ++ [tok] ∧ tok.isWord = false) ∧
    startReading 1 none 0 (initSession [] [] none) = initSession [] [] none := by
  refine ⟨tokenize_boundary_cases.2.1 "abc".toList (by decide) (by decide),
          tokenize_boundary_cases.2.2.1 ' ' "x".toList (by decide),
          tokenize_boundary_cases.2.2.2.1 "x ".toList ⟨' ', by decide, by decide⟩,
          tokenize_boundary_cases.2.2.2.2 1 none 0 (initSession [] [] none) rfl⟩

/-! ### Session lemmas -/

theorem cancelEngine_dead (st : Session) : ∀ s ∈ (cancelEngine st).streams, s.live = false := by
  intro s hs
  simp only [cancelEngine] at hs
  obtain ⟨a, _, rfl⟩ := List.mem_map.mp hs
  rfl

theorem filter_live_map_false (l : List StreamRec) :
    (l.map (fun s => { s with live := false })).filter (fun s => s.live) = [] := by
  induction l with
  | nil => rfl
  | cons a as ih => simpa [List.filter_cons] using ih

theorem liveCount_cancelEngine (st : Session) : liveCount (cancelEngine st) = 0 := by
  simp [liveCount, cancelEngine, filter_live_map_false]

theorem map_kill_dead_id (l : List StreamRec) (h : ∀ s ∈ l, s.live = false) :
    l.map (fun s => { s with live := false }) = l := by
  induction l with
  | nil => rfl
  | cons a as ih =>
    have ha : a.live = false := h a (by simp)
    have ha2 : { a with live := false } = a := by
      cases a with
      | mk b r v lv => simp_all
    simp only [List.map_cons, ha2]
    rw [ih (fun s hs => h s (by simp [hs]))]

theorem liveCount_startReading_le (r : Rat) (v : Option String) (o : Nat) (st : Session)
    (h : liveCount st ≤ 1) : liveCount (startReading r v o st) ≤ 1 := by
  unfold startReading
  by_cases h1 : st.doc.all isSpace = true
  · simp only [h1, if_true]; exact h
  · simp only [h1, Bool.false_eq_true, if_false]
    by_cases h2 : (st.doc.drop o).all isSpace = true
    · simp only [h2, if_true]
      rw [liveCount_cancelEngine]; omega
    · simp only [h2, Bool.false_eq_true, if_false]
      simp only [liveCount, cancelEngine, List.filter_append, List.length_append,
        filter_live_map_false]
      simp [List.filter]

theorem liveCount_stopReading (st : Session) : liveCount (stopReading st) = 0 := by
  simp [liveCount, stopReading, cancelEngine, filter_live_map_false]

theorem liveCount_runCmd_le (st : Session) (c : Cmd) (h : liveCount st ≤ 1) :
    liveCount (runCmd st c) ≤ 1 := by
  cases c with
  | start o => exact liveCount_startReading_le _ _ _ _ h
  | seek o =>
    exact liveCount_startReading_le _ _ _ _ (by rw [liveCount_cancelEngine]; omega)
  | stop => show liveCount (stopReading st) ≤ 1; rw [liveCount_stopReading]; omega
  | replay =>
    refine liveCount_startReading_le _ _ _ _ ?_
    rw [liveCount_stopReading]; omega
  | changeRate r =>
    simp only [runCmd, handleRateChange]
    by_cases hp : ({ st with rate := r } : Session).isPlaying = true
    · rw [if_pos hp]
      exact liveCount_startReading_le _ _ _ _ (by rw [liveCount_cancelEngine]; omega)
    · rw [if_neg hp]; exact h
  | changeVoice n =>
    simp only [runCmd, handleVoiceChange]
    cases hf : st.voices.find? (fun v => v = n) with
    | none => simp only [hf]; exact h
    | some v =>
      simp only [hf]
      by_cases hp : ({ st with selectedVoice := some v } : Session).isPlaying = true
      · rw [if_pos hp]
        exact liveCount_startReading_le _ _ _ _ (by rw [liveCount_cancelEngine]; omega)
      · rw [if_neg hp]; exact h

theorem liveCount_foldl_le (cmds : List Cmd) :
    ∀ st : Session, liveCount st ≤ 1 → liveCount (cmds.foldl runCmd st) ≤ 1 := by
  induction cmds with
  | nil => intro st h; exact h
  | cons c cs ih =>
    intro st h
    exact ih (runCmd st c) (liveCount_runCmd_le st c h)

/-! ### Claim theorems: narration session -/

/-- C2: after any finite sequence of Start/Seek/Stop/Replay/ChangeRate/
ChangeVoice commands from the initial session, at most one underlying speech
stream is live; and delivering a word-boundary event for any canceled
(non-live) stream leaves the state - in particular `currentWordIndex` -
completely unchanged, so a stale stream can never overwrite the position of a
newer one. -/
theorem at_most_one_stream (doc : List Char) (voices : List String)
    (v0 : Option String) (cmds : List Cmd) :
    liveCount (cmds.foldl runCmd (initSession doc voices v0)) ≤ 1 ∧
    (∀ (k c : Nat) (s : StreamRec),
      (cmds.foldl runCmd (initSession doc voices v0)).streams.get? k = some s →
      s.live = false →
      deliverBoundary (cmds.foldl runCmd (initSession doc voices v0)) k "word" c =
        cmds.foldl runCmd (initSession doc voices v0)) := by
  constructor
  · exact liveCount_foldl_le cmds _ (by simp [liveCount, initSession])
  · intro k c s hget hlive
    simp only [deliverBoundary]
    rw [hget]
    simp [hlive]

/-- Witness for C2: document "alpha beta gamma", commands Start(0) then
Seek(11); the stream created by Start(0) is canceled, and a late boundary
event for it changes nothing. -/
theorem at_most_one_stream_witness :
    liveCount ([Cmd.start 0, Cmd.seek 11].foldl runCmd
      (initSession "alpha beta gamma".toList [] none)) ≤ 1 ∧
    deliverBoundary ([Cmd.start 0, Cmd.seek 11].foldl runCmd
        (initSession "alpha beta gamma".toList [] none)) 0 "word" 5 =
      [Cmd.start 0, Cmd.seek 11].foldl runCmd
        (initSession "alpha beta gamma".toList [] none) := by
  refine ⟨(at_most_one_stream "alpha beta gamma".toList [] none
            [Cmd.start 0, Cmd.seek 11]).1, ?_⟩
  exact (at_most_one_stream "alpha beta gamma".toList [] none
    [Cmd.start 0, Cmd.seek 11]).2 0 5 (StreamRec.mk 0 1 none false) (by decide) rfl

/-- C1: the boundary handler rebases local engine indices to global offsets:
after `startReading(idx)` creates a stream (the slice from `idx` is not
whitespace-only), delivering a word-boundary event with local character index
`c` on that stream sets `currentWordIndex` to `idx + c`. -/
theorem boundary_event_global_offset (st : Session) (r : Rat) (v : Option String)
    (idx c : Nat) (h : (st.doc.drop idx).all isSpace = false) :
    (deliverBoundary (startReading r v idx st) st.streams.length "word" c).currentWordIndex =
      ((idx + c : Nat) : Int) := by
  have hdoc : st.doc.all isSpace = false := by
    cases hx : st.doc.all isSpace with
    | false => rfl
    | true =>
      exfalso
      have hdrop : (st.doc.drop idx).all isSpace = true :=
        List.all_eq_true.mpr
          (fun x hx2 => (List.all_eq_true.mp hx) x (List.mem_of_mem_drop hx2))
      rw [hdrop] at h
      cases h
  have hlen : (cancelEngine st).streams.length = st.streams.length := by
    simp [cancelEngine]
  have hget : ((cancelEngine st).streams ++ [StreamRec.mk idx r v true]).get?
      st.streams.length = some (StreamRec.mk idx r v true) := by
    rw [List.get?_eq_getElem?, List.getElem?_append_right (by omega)]
    simp [hlen]
  simp only [startReading, hdoc, Bool.false_eq_true, if_false, h]
  simp only [deliverBoundary]
  rw [hget]
  simp

/-- Witness for C1: the spec's scenario on "alpha beta gamma": Start(0) then a
boundary at local index 6 puts the offset at 6; Seek(12) (cancel + restart at
12) then a boundary at local index 0 puts the offset at 12, not 18. -/
theorem boundary_event_global_offset_witness :
    (deliverBoundary (startReading 1 none 0 (initSession "alpha beta gamma".toList [] none))
        0 "word" 6).currentWordIndex = 6 ∧
    (deliverBoundary
        (startReading 1 none 12 (cancelEngine
          (deliverBoundary (startReading 1 none 0 (initSession "alpha beta gamma".toList [] none))
            0 "word" 6)))
        1 "word" 0).currentWordIndex = 12 := by
  constructor
  · have h := boundary_event_global_offset (initSession "alpha beta gamma".toList [] none)
      1 none 0 6 (by decide)
    simpa using h
  · have h := boundary_event_global_offset (cancelEngine
      (deliverBoundary (startReading 1 none 0 (initSession "alpha beta gamma".toList [] none))
        0 "word" 6)) 1 none 12 0 (by decide)
    rw [show (cancelEngine
      (deliverBoundary (startReading 1 none 0 (initSession "alpha beta gamma".toList [] none))
        0 "word" 6)).streams.length = 1 from rfl] at h
    simpa using h

/-- C6: if the document slice from offset `o` is empty or whitespace-only (in
particular whenever `o ≥ len(doc)`), `Start(o)` from an Idle session (not
playing, no live stream) is a no-op: the state is returned unchanged, so no
stream is created and the session stays Idle. -/
theorem start_whitespace_tail_noop (st : Session) (r : Rat) (v : Option String) (o : Nat)
    (hIdle : st.isPlaying = false ∧ ∀ s ∈ st.streams, s.live = false)
    (hTail : (st.doc.drop o).all isSpace = true) :
    startReading r v o st = st := by
  have hcancel : cancelEngine st = st := by
    show { st with streams := st.streams.map (fun s => { s with live := false }) } = st
    rw [map_kill_dead_id st.streams hIdle.2]
  unfold startReading
  by_cases h1 : st.doc.all isSpace = true
  · rw [if_pos h1]
  · rw [if_neg h1]
    simp only [hTail, if_true]
    exact hcancel

/-- Witness for C6: Start(20) on the 16-character document "alpha beta gamma"
with a previously canceled stream on record is a no-op. -/
theorem start_whitespace_tail_noop_witness :
    startReading 1 none 20 { initSession "alpha beta gamma".toList [] none with
      streams := [StreamRec.mk 0 1 none false] } =
    { initSession "alpha beta gamma".toList [] none with
      streams := [StreamRec.mk 0 1 none false] } := by
  exact start_whitespace_tail_noop _ 1 none 20 ⟨rfl, by decide⟩ (by decide)

theorem startReading_live_base (r : Rat) (v : Option String) (o : Nat) (st : Session)
    (hdead : ∀ s ∈ st.streams, s.live = false) :
    ∀ s ∈ (startReading r v o st).streams, s.live = true → s.base = o := by
  intro s hs hlive
  unfold startReading at hs
  by_cases h1 : st.doc.all isSpace = true
  · rw [if_pos h1] at hs
    exact absurd (hdead s hs) (by simp [hlive])
  · rw [if_neg h1] at hs
    by_cases h2 : (st.doc.drop o).all isSpace = true
    · simp only [h2, if_true] at hs
      exact absurd (cancelEngine_dead st s hs) (by simp [hlive])
    · simp only [h2, Bool.false_eq_true, if_false] at hs
      have hs2 : s ∈ (cancelEngine st).streams ++ [StreamRec.mk o r v true] := hs
      rcases List.mem_append.mp hs2 with hmem | hmem
      · exact absurd (cancelEngine_dead st s hmem) (by simp [hlive])
      · have : s = StreamRec.mk o r v true := by simpa using hmem
        rw [this]

/-- C9: if ChangeRate or ChangeVoice fires while Playing and `currentWordIndex`
is not yet positive (still -1, or 0), the restarted stream's baseOffset is 0:
the restart offset is the max-like clamp `currentWordIndex > 0 ?
currentWordIndex : 0`, which equals `max currentWordIndex 0`, so a negative or
absent position is never used as a starting offset. -/
theorem restart_offset_clamped (st : Session) (hPlay : st.isPlaying = true)
    (hPos : st.currentWordIndex ≤ 0) :
    (∀ (r : Rat), ∀ s ∈ (handleRateChange r st).streams, s.live = true → s.base = 0) ∧
    (∀ (name : String), name ∈ st.voices →
      ∀ s ∈ (handleVoiceChange name st).streams, s.live = true → s.base = 0) ∧
    (∀ i : Int, (if 0 < i then i.toNat else 0) = (max i 0).toNat) := by
  refine ⟨?_, ?_, ?_⟩
  · intro r s hs hlive
    simp only [handleRateChange] at hs
    rw [if_pos (show ({ st with rate := r } : Session).isPlaying = true from hPlay)] at hs
    rw [if_neg (show ¬ (0 < (cancelEngine { st with rate := r }).currentWordIndex) from
      not_lt.mpr hPos)] at hs
    exact startReading_live_base _ _ _ _ (cancelEngine_dead _) s hs hlive
  · intro name hname s hs hlive
    obtain ⟨a, ha⟩ : ∃ a, st.voices.find? (fun v => v = name) = some a := by
      have hsome : (st.voices.find? (fun v => v = name)).isSome :=
        List.find?_isSome.mpr ⟨name, hname, by simp⟩
      exact Option.isSome_iff_exists.mp hsome
    simp only [handleVoiceChange, ha] at hs
    rw [if_pos (show ({ st with selectedVoice := some a } : Session).isPlaying = true
      from hPlay)] at hs
    rw [if_neg (show ¬ (0 < (cancelEngine
      { st with selectedVoice := some a }).currentWordIndex) from not_lt.mpr hPos)] at hs
    exact startReading_live_base _ _ _ _ (cancelEngine_dead _) s hs hlive
  · intro i
    rcases le_or_lt i 0 with h | h
    · rw [if_neg (not_lt.mpr h), max_eq_right h]
      rfl
    · rw [if_pos h, max_eq_left (le_of_lt h)]

/-- Witness for C9: Playing with `currentWordIndex = -1`; ChangeRate(2)
restarts a stream with base offset 0. -/
theorem restart_offset_clamped_witness :
    (handleRateChange 2 { initSession "alpha beta gamma".toList ["v1"] none with
        isPlaying := true, currentWordIndex := -1,
        streams := [StreamRec.mk 5 1 none true] }).streams.get? 1 =
      some (StreamRec.mk 0 1 none true) ∧
    (StreamRec.mk 0 1 none true).base = 0 := by
  refine ⟨by decide, ?_⟩
  exact (restart_offset_clamped { initSession "alpha beta gamma".toList ["v1"] none with
      isPlaying := true, currentWordIndex := -1,
      streams := [StreamRec.mk 5 1 none true] } rfl (by decide)).1 2
    (StreamRec.mk 0 1 none true) (by decide) rfl

/-- C10: pauseReading and resumeReading leave all position and parameter state
unchanged - `currentWordIndex`, the streams (hence every stream's baseOffset),
rate, selected voice, document, and the Playing/Paused component flags - and
never cancel or create a stream; pauseReading issues the engine pause (setting
the engine's paused flag) exactly when the engine is speaking and not already
paused, and resumeReading issues the engine resume exactly when the engine is
paused. -/
theorem pause_resume_frame (st : Session) :
    ((pauseReading st).doc = st.doc ∧
     (pauseReading st).currentWordIndex = st.currentWordIndex ∧
     (pauseReading st).rate = st.rate ∧
     (pauseReading st).selectedVoice = st.selectedVoice ∧
     (pauseReading st).streams = st.streams ∧
     (pauseReading st).isPlaying = st.isPlaying ∧
     (pauseReading st).isPaused = st.isPaused) ∧
    ((resumeReading st).doc = st.doc ∧
     (resumeReading st).currentWordIndex = st.currentWordIndex ∧
     (resumeReading st).rate = st.rate ∧
     (resumeReading st).selectedVoice = st.selectedVoice ∧
     (resumeReading st).streams = st.streams ∧
     (resumeReading st).isPlaying = st.isPlaying ∧
     (resumeReading st).isPaused = st.isPaused) ∧
    (pauseReading st =
      if engineSpeaking st && !st.enginePaused then { st with enginePaused := true } else st) ∧
    (resumeReading st =
      if st.enginePaused then { st with enginePaused := false } else st) := by
  unfold pauseReading resumeReading
  split_ifs <;> simp_all

/-- C4 (code-bug evidence): Playing at rate 1 with `currentWordIndex = 6`,
ChangeRate(3/2) stores the new rate and restarts from baseOffset 6 (not 0),
but the restarted utterance is created by the `startReading` closure captured
before `setRate` took effect, so it carries the old rate 1, not the new 3/2:
the parameter change does not take effect on the restarted stream. -/
theorem rate_change_stale_parameter :
    (handleRateChange (3/2) { initSession "alpha beta gamma".toList [] none with
        isPlaying := true, currentWordIndex := 6,
        streams := [StreamRec.mk 0 1 none true] }).rate = 3/2 ∧
    (handleRateChange (3/2) { initSession "alpha beta gamma".toList [] none with
        isPlaying := true, currentWordIndex := 6,
        streams := [StreamRec.mk 0 1 none true] }).streams =
      [StreamRec.mk 0 1 none false, StreamRec.mk 6 1 none true] ∧
    ((3 : Rat)/2 ≠ 1) := by
  refine ⟨rfl, by decide, by norm_num⟩

/-! ### Highlight lemmas -/

theorem domText_nil : domText [] = [] := rfl

theorem domText_cons (a : Seg) (as : List Seg) :
    domText (a :: as) = segText a ++ domText as := by
  simp [domText]

theorem countMark_nil : countMark [] = 0 := rfl

theorem countMark_cons (a : Seg) (as : List Seg) :
    countMark (a :: as) = (if isMark a = true then 1 else 0) + countMark as := by
  simp only [countMark, List.filter_cons]
  split_ifs <;> simp [Nat.add_comm]

theorem countMark_set_txt (s : List Char) :
    ∀ (l : List Seg) (i : Nat), l.get? i = some (Seg.markEl s) →
      countMark (l.set i (Seg.txt s)) + 1 = countMark l := by
  intro l
  induction l with
  | nil => intro i h; simp at h
  | cons a as ih =>
    intro i h
    cases i with
    | zero =>
      simp only [List.get?_cons_zero, Option.some.injEq] at h
      subst h
      simp [List.set, countMark_cons, isMark, Nat.add_comm]
    | succ n =>
      simp only [List.get?_cons_succ] at h
      simp only [List.set, countMark_cons]
      have := ih n h
      omega

theorem domText_set_txt (s : List Char) :
    ∀ (l : List Seg) (i : Nat), l.get? i = some (Seg.markEl s) →
      domText (l.set i (Seg.txt s)) = domText l := by
  intro l
  induction l with
  | nil => intro i h; simp at h
  | cons a as ih =>
    intro i h
    cases i with
    | zero =>
      simp only [List.get?_cons_zero, Option.some.injEq] at h
      subst h
      simp [List.set, domText_cons, segText]
    | succ n =>
      simp only [List.get?_cons_succ] at h
      simp only [List.set, domText_cons]
      rw [ih n h]

theorem countMark_normalizeDom (l : List Seg) :
    countMark (normalizeDom l) = countMark l := by
  induction l with
  | nil => rfl
  | cons a as ih =>
    cases a with
    | markEl t =>
      simp only [normalizeDom, countMark_cons, isMark, ih]
    | txt s =>
      simp only [normalizeDom]
      cases hn : normalizeDom as with
      | nil =>
        rw [hn] at ih
        have has : countMark as = 0 := by rw [← ih]; rfl
        dsimp only
        by_cases hs : s = []
        · rw [if_pos hs]
          simp [countMark_cons, countMark_nil, isMark, has]
        · rw [if_neg hs]
          simp [countMark_cons, countMark_nil, isMark, has]
      | cons b bs =>
        rw [hn] at ih
        cases b with
        | txt t =>
          dsimp only
          by_cases he : s ++ t = []
          · rw [if_pos he]
            simp [countMark_cons, isMark] at ih ⊢
            omega
          · rw [if_neg he]
            simp [countMark_cons, isMark] at ih ⊢
            omega
        | markEl t =>
          dsimp only
          by_cases hs : s = []
          · rw [if_pos hs]
            simp [countMark_cons, isMark] at ih ⊢
            omega
          · rw [if_neg hs]
            simp [countMark_cons, isMark] at ih ⊢
            omega

theorem domText_normalizeDom (l : List Seg) :
    domText (normalizeDom l) = domText l := by
  induction l with
  | nil => rfl
  | cons a as ih =>
    cases a with
    | markEl t =>
      simp only [normalizeDom, domText_cons, ih]
    | txt s =>
      simp only [normalizeDom]
      cases hn : normalizeDom as with
      | nil =>
        rw [hn] at ih
        have has : domText as = [] := by rw [← ih]; rfl
        dsimp only
        by_cases hs : s = []
        · rw [if_pos hs]
          simp [domText_cons, domText_nil, segText, has, hs]
        · rw [if_neg hs]
          simp [domText_cons, domText_nil, segText, has]
      | cons b bs =>
        rw [hn] at ih
        cases b with
        | txt t =>
          dsimp only
          by_cases he : s ++ t = []
          · rw [if_pos he]
            obtain ⟨hs, ht⟩ := List.append_eq_nil.mp he
            subst hs
            subst ht
            simp only [domText_cons, segText, List.nil_append] at ih ⊢
            exact ih
          · rw [if_neg he]
            simp only [domText_cons, segText] at ih ⊢
            rw [← ih, List.append_assoc]
        | markEl t =>
          dsimp only
          by_cases hs : s = []
          · rw [if_pos hs]
            subst hs
            simp only [domText_cons, segText, List.nil_append] at ih ⊢
            exact ih
          · rw [if_neg hs]
            simp only [domText_cons, segText] at ih ⊢
            rw [← ih]

theorem cleanup_props (vs : ViewerState) (h : refInv vs) :
    (cleanupHighlight vs).highlightRef = none ∧
    countMark (cleanupHighlight vs).dom = 0 ∧
    domText (cleanupHighlight vs).dom = domText vs.dom := by
  cases href : vs.highlightRef with
  | none =>
    have hc : cleanupHighlight vs = vs := by
      unfold cleanupHighlight
      rw [href]
    unfold refInv at h
    rw [href] at h
    rw [hc]
    exact ⟨href, h, rfl⟩
  | some i =>
    unfold refInv at h
    rw [href] at h
    obtain ⟨h1, t, h2⟩ := h
    have hc : cleanupHighlight vs =
        { dom := normalizeDom (vs.dom.set i (Seg.txt t)), highlightRef := none } := by
      unfold cleanupHighlight
      rw [href]
      dsimp only
      rw [h2]
    rw [hc]
    refine ⟨rfl, ?_, ?_⟩
    · show countMark (normalizeDom (vs.dom.set i (Seg.txt t))) = 0
      rw [countMark_normalizeDom]
      have := countMark_set_txt t vs.dom i h2
      omega
    · show domText (normalizeDom (vs.dom.set i (Seg.txt t))) = domText vs.dom
      rw [domText_normalizeDom]
      exact domText_set_txt t vs.dom i h2

theorem take_wrap_split (s : List Char) (idx wl : Nat) :
    s.take idx ++ ((s.drop idx).take wl ++ s.drop (idx + wl)) = s := by
  have h1 : s.drop (idx + wl) = (s.drop idx).drop wl := by
    rw [List.drop_drop]
  rw [h1, List.take_append_drop, List.take_append_drop]

theorem wrapAt_props :
    ∀ (l : List Seg) (idx : Nat), countMark l = 0 →
      domText (wrapAt l idx).1 = domText l ∧
      (match (wrapAt l idx).2 with
       | none => countMark (wrapAt l idx).1 = 0
       | some j => countMark (wrapAt l idx).1 = 1 ∧
           ∃ s, (wrapAt l idx).1.get? j = some (Seg.markEl s)) := by
  intro l
  induction l with
  | nil => intro idx h; exact ⟨rfl, by simp [wrapAt, countMark_nil]⟩
  | cons seg rest ih =>
    intro idx h
    have hseg : isMark seg = false := by
      rw [countMark_cons] at h
      by_cases hm : isMark seg = true
      · rw [hm] at h; simp at h
      · simpa using hm
    have hrest : countMark rest = 0 := by
      rw [countMark_cons, hseg] at h
      simpa using h
    unfold wrapAt
    by_cases hidx : idx < (segText seg).length
    · rw [if_pos hidx]
      cases seg with
      | markEl t => simp [isMark] at hseg
      | txt s =>
        dsimp only
        by_cases hguard : idx + matchWordLen (s.drop idx) ≤ s.length
        · rw [if_pos hguard]
          constructor
          · simp only [domText_cons, segText]
            rw [← List.drop_drop]
            rw [← List.append_assoc ((s.drop idx).take (matchWordLen (s.drop idx))),
              List.take_append_drop, ← List.append_assoc, List.take_append_drop]
          · simp only []
            constructor
            · simp [countMark_cons, isMark, hrest]
            · exact ⟨(s.drop idx).take (matchWordLen (s.drop idx)), rfl⟩
        · rw [if_neg hguard]
          exact ⟨rfl, by simp [countMark_cons, isMark, hrest]⟩
    · rw [if_neg hidx]
      obtain ⟨ihd, ihr⟩ := ih (idx - (segText seg).length) hrest
      constructor
      · simp only [domText_cons, ihd]
      · cases hp : (wrapAt rest (idx - (segText seg).length)).2 with
        | none =>
          rw [hp] at ihr
          simp only [hp, Option.map_none]
          simp [countMark_cons, hseg, ihr]
        | some j =>
          rw [hp] at ihr
          obtain ⟨ih1, t, ih2⟩ := ihr
          simp only [hp, Option.map_some]
          constructor
          · simp [countMark_cons, hseg, ih1]
          · exact ⟨t, by simpa using ih2⟩

theorem wrapAt_out_of_range :
    ∀ (l : List Seg) (idx : Nat), (domText l).length ≤ idx → wrapAt l idx = (l, none) := by
  intro l
  induction l with
  | nil => intro idx h; rfl
  | cons seg rest ih =>
    intro idx h
    rw [domText_cons, List.length_append] at h
    have hidx : ¬ idx < (segText seg).length := by omega
    unfold wrapAt
    rw [if_neg hidx, ih (idx - (segText seg).length) (by omega)]
    rfl

theorem effect_refInv (idx : Int) (playing : Bool) (vs : ViewerState) (h : refInv vs) :
    refInv (applyHighlightEffect idx playing vs) ∧
    domText (applyHighlightEffect idx playing vs).dom = domText vs.dom := by
  obtain ⟨hc1, hc2, hc3⟩ := cleanup_props vs h
  unfold applyHighlightEffect
  by_cases hcond : (idx < 0 || !playing) = true
  · rw [if_pos hcond]
    refine ⟨?_, hc3⟩
    unfold refInv
    rw [hc1]
    exact hc2
  · rw [if_neg hcond]
    obtain ⟨hw1, hw2⟩ := wrapAt_props (cleanupHighlight vs).dom idx.toNat hc2
    constructor
    · unfold refInv
      dsimp only
      cases hp : (wrapAt (cleanupHighlight vs).dom idx.toNat).2 with
      | none => rw [hp] at hw2; exact hw2
      | some j => rw [hp] at hw2; exact hw2
    · dsimp only
      rw [hw1]; exact hc3

theorem effect_foldl (ops : List (Int × Bool)) :
    ∀ vs : ViewerState, refInv vs →
      refInv (ops.foldl (fun acc p => applyHighlightEffect p.1 p.2 acc) vs) ∧
      domText (ops.foldl (fun acc p => applyHighlightEffect p.1 p.2 acc) vs).dom =
        domText vs.dom := by
  induction ops with
  | nil => intro vs h; exact ⟨h, rfl⟩
  | cons p ps ih =>
    intro vs h
    obtain ⟨h1, h2⟩ := effect_refInv p.1 p.2 vs h
    obtain ⟨h3, h4⟩ := ih _ h1
    exact ⟨h3, by rw [List.foldl_cons, h4, h2]⟩

theorem refInv_initViewer (nodes : List (List Char)) : refInv (initViewer nodes) := by
  unfold refInv initViewer
  simp only []
  induction nodes with
  | nil => rfl
  | cons a as ih => simpa [countMark_cons, isMark] using ih

/-! ### Claim theorems: highlighting -/

/-- C5: after any finite sequence of highlight-effect runs (each one first
removes the previous mark, restoring the run's text, before applying a new
one) starting from the freshly rendered viewer, at most one mark element is
present on the rendered surface, and the surface still carries exactly the
original text: marks never nest or accumulate. -/
theorem highlight_exclusive (nodes : List (List Char)) (ops : List (Int × Bool)) :
    countMark (ops.foldl (fun acc p => applyHighlightEffect p.1 p.2 acc)
      (initViewer nodes)).dom ≤ 1 ∧
    domText (ops.foldl (fun acc p => applyHighlightEffect p.1 p.2 acc)
      (initViewer nodes)).dom = nodes.flatten := by
  obtain ⟨h1, h2⟩ := effect_foldl ops (initViewer nodes) (refInv_initViewer nodes)
  constructor
  · unfold refInv at h1
    cases hr : (ops.foldl (fun acc p => applyHighlightEffect p.1 p.2 acc)
        (initViewer nodes)).highlightRef with
    | none => rw [hr] at h1; omega
    | some j => rw [hr] at h1; omega
  · rw [h2]
    show domText (nodes.map Seg.txt) = nodes.flatten
    unfold domText
    rw [List.map_map]
    have hcomp : segText ∘ Seg.txt = id := by funext a; rfl
    rw [hcomp, List.map_id]

/-- C7: a highlight attempt whose offset cannot be mapped to a run (negative
offset, playback not active, or offset at/past the end of the rendered text)
runs to completion without error, leaves no highlight present (null ref, zero
marks), and does not touch the narration session state at all. -/
theorem highlight_failure_silent (ses : Session) (vs : ViewerState) (idx : Int)
    (playing : Bool) (hInv : refInv vs)
    (hFail : idx < 0 ∨ playing = false ∨ (domText vs.dom).length ≤ idx.toNat) :
    (applyHighlightSys idx playing (ses, vs)).1 = ses ∧
    (applyHighlightEffect idx playing vs).highlightRef = none ∧
    countMark (applyHighlightEffect idx playing vs).dom = 0 := by
  obtain ⟨hc1, hc2, hc3⟩ := cleanup_props vs hInv
  refine ⟨rfl, ?_⟩
  unfold applyHighlightEffect
  by_cases hcond : (idx < 0 || !playing) = true
  · rw [if_pos hcond]
    exact ⟨hc1, hc2⟩
  · rw [if_neg hcond]
    have hrange : (domText (cleanupHighlight vs).dom).length ≤ idx.toNat := by
      rcases hFail with hf | hf | hf
      · exfalso; apply hcond; simp [hf]
      · exfalso; apply hcond; simp [hf]
      · rw [hc3]; exact hf
    rw [wrapAt_out_of_range (cleanupHighlight vs).dom idx.toNat hrange]
    exact ⟨rfl, hc2⟩

/-- Witness for C7: offset 99 on a viewer showing "hello" while playing. -/
theorem highlight_failure_silent_witness :
    (applyHighlightSys 99 true (initSession "hello".toList [] none,
      initViewer ["hello".toList])).1 = initSession "hello".toList [] none ∧
    (applyHighlightEffect 99 true (initViewer ["hello".toList])).highlightRef = none ∧
    countMark (applyHighlightEffect 99 true (initViewer ["hello".toList])).dom = 0 := by
  exact highlight_failure_silent (initSession "hello".toList [] none)
    (initViewer ["hello".toList]) 99 true (refInv_initViewer ["hello".toList])
    (Or.inr (Or.inr (by decide)))

end ReadAloud
